import Mathlib

/-!
A shallow embedding of the document analysis engine of the `myst-lsp`
language server: the fenced-div block rule (the option-block variant of
`parseDiv`), the MyST line-comment rule (`mdPluginMyst.ts`), the tail of the
link-reference-definition rule (`mditPlugins/defintions.ts`), and the
caching/indexing layer of the server (`DocCache`, `projectDatabase`, the
line-to-token index, and the analysis entry points).

Lines of a document are modelled as lists of characters without the trailing
newline; indentation is modelled as leading spaces, which is the
`tShift = sCount` case of the markdown-it block state (tab handling is not
exercised by any property below).  The markdown-it block state fields map as
follows: `state.bMarks[l] + state.tShift[l]` points at the first character of
`lineRest`, `state.eMarks[l]` at the end of the line, and `state.sCount[l]`
is `lineIndent`.
-/

namespace MystLsp

/-- Whitespace characters of the JavaScript `\s` class that can occur inside a
markdown line (the `.replace(/\s+$/gm, "")` right-trim of the comment rule). -/
def isWSChar (c : Char) : Bool :=
  c == ' ' || c == '\t' || c == '\n' || c == '\r' || c == '\x0b' || c == '\x0c'

/-- markdown-it `isSpace`: character code 0x09 or 0x20. -/
def isSpMd (c : Char) : Bool :=
  c == ' ' || c == '\t'

/-- Number of leading space characters of a line (`state.sCount` for
space-indented lines). -/
def lineIndent (l : List Char) : Nat :=
  (l.takeWhile (fun c => c == ' ')).length

/-- The content of a line after its indentation (the characters from
`state.bMarks + state.tShift` up to `state.eMarks`). -/
def lineRest (l : List Char) : List Char :=
  l.dropWhile (fun c => c == ' ')

/-- Length of the run of `:` characters at the head of a character list.
This is the `for (pos = start + 1; pos <= max; pos++)` marker-count loop of
`parseDiv` (with `marker_len = 1` the modulo bookkeeping is the identity). -/
def colonRun (l : List Char) : Nat :=
  (l.takeWhile (fun c => c == ':')).length

/-! ### The fenced-div rule (`parseDiv`)

Embedded from the option-block variant of `parseDiv` (the `div` rule
registered before `fence`).  `endLine` is the length of the line list and
`blkIndent` is `state.blkIndent`.
-/

/-- A line "with negative indent" that stops the close-line scan:
`start < max && state.sCount[nextLine] < state.blkIndent`. -/
def divBreakLine (blkIndent : Nat) (l : List Char) : Bool :=
  !(lineRest l).isEmpty && lineIndent l < blkIndent

/-- The test applied by `parseDiv`'s close-line search to a candidate line:
first character after the indent is the marker `:`
(`marker_char !== state.src.charCodeAt(start)` otherwise `continue`),
indented less than `blkIndent + 4` columns
(`state.sCount[nextLine] - state.blkIndent >= 4` otherwise `continue`),
the marker run is at least as long as the opening run
(`Math.floor((pos - start) / marker_len) < marker_count` otherwise
`continue`), and the tail after the run holds spaces only
(`pos = state.skipSpaces(pos); if (pos < max) continue`). -/
def isCloseLine (blkIndent n : Nat) (l : List Char) : Bool :=
  let rest := lineRest l
  rest.head? == some ':' &&
  lineIndent l < blkIndent + 4 &&
  n ≤ colonRun rest &&
  (rest.drop (colonRun rest)).all isSpMd

/-- The close-line search loop of `parseDiv`, started on the lines after the
opening line (`nextLine = startLine; for (;;) { nextLine++; ... }`).  Returns
the final `nextLine` together with `auto_closed`.  The list argument is the
suffix of the document's lines starting at line `idx`; running out of lines
is the `nextLine >= endLine` exit with `auto_closed = false`. -/
def scanClose (blkIndent n : Nat) : List (List Char) → Nat → Nat × Bool
  | [], idx => (idx, false)
  | l :: ls, idx =>
    if divBreakLine blkIndent l then (idx, false)
    else if isCloseLine blkIndent n l then (idx, true)
    else scanClose blkIndent n ls (idx + 1)

/-- An option line of a div block: the first character after the indent is a
single `:` (`colonCharCode === state.src.charCodeAt(start)` and
`colonCharCode !== state.src.charCodeAt(start + 1)`; the character after a
last-in-line `:` is the newline, modelled by `head? ≠ some ':'` on the
remainder), indented by at most `blkIndent + 3` columns
(`state.sCount[nextLine] - state.blkIndent <= 3`). -/
def isOptionLine (blkIndent : Nat) (l : List Char) : Bool :=
  match lineRest l with
  | ':' :: rest2 => !(rest2.head? == some ':') && lineIndent l ≤ blkIndent + 3
  | _ => false

/-- The `optionsEndLine` bookkeeping of `parseDiv`'s scan loop: starting from
the line after the opening line, `optionsEndLine` is set to each consecutive
option line while `inOptions` holds; the first non-option line (checked after
the negative-indent break, which ends the loop itself) clears `inOptions`
for good.  Returns the final value of `optionsEndLine`. -/
def scanOptions (blkIndent : Nat) : List (List Char) → Nat → Option Nat
  | [], _ => none
  | l :: ls, idx =>
    if divBreakLine blkIndent l then none
    else if isOptionLine blkIndent l then
      match scanOptions blkIndent ls (idx + 1) with
      | some j => some j
      | none => some idx
    else none

/-- The `div_open` token produced by `parseDiv`, together with the range that
the rule hands to the nested `state.md.block.tokenize` call and the line at
which the outer parser resumes (`state.line`).  `optMap` is
`token.meta.optMap = [startLine + 1, optionsEndLine]`; the YAML option
decode (`token.meta.options` / `token.meta.optError`) happens only when
`optMap` is present, so `optMap = none` means the token carries no option
metadata at all. -/
structure DivToken where
  markup : List Char
  info : List Char
  mapStart : Nat
  mapEnd : Nat
  optMap : Option (Nat × Nat)
  contentStart : Nat
  contentEnd : Nat
  resumeLine : Nat
deriving Repr, DecidableEq

/-- The `parseDiv` block rule (non-silent mode) of the div plugin, with
`endLine = lines.length`.  Returns `none` when the rule declines (first
character is not `:`, or fewer than `min_markers = 3` markers), otherwise the
`div_open` token data.  The opening run has length `n = marker_count`,
`markup = state.src.slice(start, pos)` and `info = state.src.slice(pos, max)`.
After the close scan, `token.map = [startLine, nextLine]`; when an option
block was found the nested tokenization starts at `optionsEndLine + 1`
(the rule reassigns `startLine = optionsEndLine`), otherwise at
`startLine + 1`; it always ends at `nextLine`, and
`state.line = nextLine + (auto_closed ? 1 : 0)`. -/
def parseDiv (blkIndent : Nat) (lines : List (List Char)) (startLine : Nat) :
    Option DivToken :=
  match lines.get? startLine with
  | none => none
  | some l =>
    let rest := lineRest l
    if !(rest.head? == some ':') then none
    else
      let n := colonRun rest
      if n < 3 then none
      else
        let scanned := scanClose blkIndent n (lines.drop (startLine + 1)) (startLine + 1)
        let oe := scanOptions blkIndent (lines.drop (startLine + 1)) (startLine + 1)
        some
          { markup := rest.take n
            info := rest.drop n
            mapStart := startLine
            mapEnd := scanned.1
            optMap := oe.map (fun j => (startLine + 1, j))
            contentStart := match oe with | some j => j + 1 | none => startLine + 1
            contentEnd := scanned.1
            resumeLine := scanned.1 + (if scanned.2 then 1 else 0) }

/-! ### The MyST line-comment rule (`parse_line_comment`) -/

/-- Right-trim of a line (`.replace(/\s+$/gm, "")` on single-line content). -/
def rstrip (l : List Char) : List Char :=
  (l.reverse.dropWhile isWSChar).reverse

/-- Whether a line continues a line comment: the character at
`state.bMarks[nextLine] + state.tShift[nextLine]` is `%`
(`state.src[pos] !== "%"` breaks the loop).  Note there is no indentation
restriction here. -/
def commentLine (l : List Char) : Bool :=
  (lineRest l).head? == some '%'

/-- Text contributed by one comment line: `state.src.slice(pos + 1, maximum)`
right-trimmed, i.e. the line content after the `%`, right-trimmed. -/
def commentText (l : List Char) : List Char :=
  rstrip ((lineRest l).drop 1)

/-- The continuation loop of `parse_line_comment`
(`for (nextLine = startLine + 1; nextLine < endLine; nextLine++)`): appends
`"\n" + text` for each consumed line to the accumulated content and counts
consumed lines.  The list argument is the suffix of the document's lines
starting at `startLine + 1`. -/
def commentCont : List (List Char) → List Char → Nat → List Char × Nat
  | [], content, count => (content, count)
  | l :: ls, content, count =>
    if commentLine l then
      commentCont ls (content ++ '\n' :: commentText l) (count + 1)
    else (content, count)

/-- The `myst_line_comment` token: stripped, joined content plus the line
span `token.map = [startLine, nextLine]`. -/
structure CommentToken where
  content : List Char
  mapStart : Nat
  mapEnd : Nat
deriving Repr, DecidableEq

/-- The `parse_line_comment` block rule (non-silent mode), with
`endLine = lines.length`.  Declines when the first line is indented four or
more columns past `blkIndent`
(`state.sCount[startLine] - state.blkIndent >= 4`) or does not start with
`%`; otherwise consumes the first line and every immediately following line
whose first non-indent character is `%`. -/
def parseLineComment (blkIndent : Nat) (lines : List (List Char))
    (startLine : Nat) : Option CommentToken :=
  match lines.get? startLine with
  | none => none
  | some l =>
    if blkIndent + 4 ≤ lineIndent l then none
    else if !commentLine l then none
    else
      let scanned := commentCont (lines.drop (startLine + 1)) (commentText l) 0
      some { content := scanned.1
             mapStart := startLine
             mapEnd := startLine + 1 + scanned.2 }

/-! ### The link-reference-definition rule (`reference`), title/garbage tail

The rule joins the candidate lines into one string `str` with
`max = str.length`, parses the label and the destination, and records the
cursor right after the destination (`destEndPos`, `destEndLineNo`).  The
functions below embed the remainder of the rule, from the whitespace skip
before the title up to the final garbage check; `none` means the rule
returns `false` (declines, no `definition` token).  The embedding works on
`str` as a character list with `max = str.length` (as in the rule, where
`max` is set to the length of the joined string).
-/

/-- Leading whitespace of a string suffix as skipped by the loop before the
title parse (`if (ch === 0x0A) lines++; else if (isSpace(ch)) ; else break`):
returns the number of characters skipped and the number of newlines among
them. -/
def skipChars : List Char → Nat × Nat
  | [] => (0, 0)
  | c :: rest =>
    if c == '\n' then
      let r := skipChars rest
      (r.1 + 1, r.2 + 1)
    else if isSpMd c then
      let r := skipChars rest
      (r.1 + 1, r.2)
    else (0, 0)

/-- Skip spaces and newlines from position `pos`, threading the line count. -/
def skipSpNl (str : List Char) (pos lines : Nat) : Nat × Nat :=
  let r := skipChars (str.drop pos)
  (pos + r.1, lines + r.2)

/-- Number of leading space/tab characters of a string suffix, as skipped by
the `while (pos < max) { if (!isSpace(ch)) break; pos++ }` loops after the
title and after a rollback. -/
def skipSpOnly : List Char → Nat
  | [] => 0
  | c :: rest => if isSpMd c then skipSpOnly rest + 1 else 0

/-- Skip spaces and tabs (but not newlines) from position `pos`. -/
def skipSp (str : List Char) (pos : Nat) : Nat :=
  pos + skipSpOnly (str.drop pos)

/-- The rule's garbage test at a position:
`pos < max && str.charCodeAt(pos) !== 0x0A`. -/
def garbageAt (str : List Char) (pos : Nat) : Bool :=
  match str.drop pos with
  | [] => false
  | c :: _ => !(c == '\n')

/-- Result record of markdown-it's `parseLinkTitle` helper
(`{ ok, pos, lines, str }`).  The title text is kept as the raw slice
between the delimiters; the helper additionally runs `unescapeAll` on it,
which maps the empty slice to the empty string and a non-empty slice to a
non-empty string, so truthiness of `str` (all the rule inspects) is
unchanged. -/
structure TitleRes where
  ok : Bool
  pos : Nat
  lines : Nat
  str : List Char
deriving Repr, DecidableEq

/-- Main loop of `parseLinkTitle`, walking the characters after the opening
delimiter: stops successfully one past the closing `marker`; fails on `(`
inside a `(...)` title; counts newlines; a backslash followed by another
character skips both (counting a skipped newline).  Returns the title
characters, the newline count and the number of characters consumed
(including the closing marker), or `none` when the closing marker is never
found. -/
def titleLoop (marker : Char) : List Char → Option (List Char × Nat × Nat)
  | [] => none
  | c :: rest =>
    if c == marker then some ([], 0, 1)
    else if c == '(' && marker == ')' then none
    else if c == '\n' then
      (titleLoop marker rest).map (fun r => (c :: r.1, r.2.1 + 1, r.2.2 + 1))
    else if c == '\\' then
      match rest with
      | c2 :: rest2 =>
        (titleLoop marker rest2).map
          (fun r => (c :: c2 :: r.1, r.2.1 + (if c2 == '\n' then 1 else 0), r.2.2 + 2))
      | [] => none
    else
      (titleLoop marker rest).map (fun r => (c :: r.1, r.2.1, r.2.2 + 1))

/-- markdown-it's `parseLinkTitle(str, pos, max)` with `max = str.length`:
fails unless the character at `pos` is `"`, `'` or `(`; a `(` opener is
matched by `)`. -/
def parseLinkTitle (str : List Char) (pos : Nat) : TitleRes :=
  match str.drop pos with
  | [] => ⟨false, 0, 0, []⟩
  | c :: rest =>
    if c == '"' || c == Char.ofNat 39 || c == '(' then
      match titleLoop (if c == '(' then ')' else c) rest with
      | some r => ⟨true, pos + 1 + r.2.2, r.2.1, r.1⟩
      | none => ⟨false, 0, 0, []⟩
    else ⟨false, 0, 0, []⟩

/-- Successful outcome of the definition rule's tail: the final cursor
position, line count, and title (`""` when absent or discarded). -/
structure RefTail where
  pos : Nat
  lines : Nat
  title : List Char
deriving Repr, DecidableEq

/-- The tail of the `reference` rule, starting just after the parsed
destination (`destEnd` = `destEndPos`, `destLines` = `destEndLineNo`):
skip whitespace, try `parseLinkTitle` (accepted only when at least one
whitespace character was skipped and the end was not reached); then skip
trailing spaces; on garbage after an accepted non-empty title, roll back to
just after the destination and re-run the trailing-space skip; a final
garbage check rejects the whole rule (`return false`), otherwise the
definition is emitted with the surviving title. -/
def refTail (str : List Char) (destEnd destLines : Nat) : Option RefTail :=
  let sp := skipSpNl str destEnd destLines
  let tres := parseLinkTitle str sp.1
  if sp.1 < str.length && !(destEnd == sp.1) && tres.ok then
    let pos3 := skipSp str tres.pos
    if garbageAt str pos3 then
      if !tres.str.isEmpty then
        let pos4 := skipSp str destEnd
        if garbageAt str pos4 then none
        else some ⟨pos4, destLines, []⟩
      else none
    else some ⟨pos3, sp.2 + tres.lines, tres.str⟩
  else
    let pos3 := skipSp str destEnd
    if garbageAt str pos3 then none
    else some ⟨pos3, destLines, []⟩

/-! ### Server data model (`server.ts`)

Association lists model the JavaScript `Map`s (insertion-ordered;
`Map.set` on an existing key updates in place, on a new key appends) and
`Set`s (insertion-ordered lists without duplicates).
-/

/-- A markdown-it token as consumed by the server: its `type` tag, its
`content` and its optional `map = [startLine, endLine]` line span. -/
structure Token where
  type : String
  content : String
  map : Option (Nat × Nat)
deriving Repr, DecidableEq

/-- A record of the project target index (`ITargetData`). -/
structure ITargetData where
  uri : String
  name : String
  line : Nat
deriving Repr, DecidableEq

/-- A cached link-reference definition (`IDefinition`). -/
structure IDefinition where
  key : String
  title : String
  href : String
deriving Repr, DecidableEq

/-- Contribution of the token at position `i` to the bucket of line `j`:
tokens without a `map` are skipped (`if (!token.map) continue`), a token
with `map = [s, e]` is pushed on the bucket of every line
`j = s, ..., e - 1`. -/
def spanHits (i : Nat) (m : Option (Nat × Nat)) (j : Nat) : List Nat :=
  match m with
  | none => []
  | some (s, e) => if s ≤ j ∧ j < e then [i] else []

/-- The `lineToTokenIndex` construction of `parseTextDocument`, from token
position `i` on: the bucket of line `j` lists, in increasing position order,
every token spanning line `j`.  A JavaScript array slot never assigned
(no token spans the line) reads as `undefined`, which every consumer
defaults to `[]`; the index is therefore modelled as the total function
from lines to buckets. -/
def buildIndexFrom (i : Nat) : List Token → Nat → List Nat
  | [], _ => []
  | t :: ts, j => spanHits i t.map j ++ buildIndexFrom (i + 1) ts j

/-- The `lineToTokenIndex` of a token list. -/
def buildIndex (tokens : List Token) : Nat → List Nat :=
  buildIndexFrom 0 tokens

/-- The target extraction of `parseTextDocument`:
`tokens.filter(t => t.type === "myst_target" && t.map).map(...)`, stamping
the document's URI and the span's start line. -/
def mkTargets (uri : String) (tokens : List Token) : List ITargetData :=
  (tokens.filter (fun t => t.type == "myst_target" && t.map.isSome)).map
    (fun t =>
      { name := t.content
        uri := uri
        line := match t.map with | some (s, _) => s | none => 0 })

/-- Per-URI cached state (`ICacheData`). -/
structure ICacheData where
  tokens : List Token
  lineToTokenIndex : Nat → List Nat
  defs : List IDefinition

/-- Lookup in an association list (the first entry with the given key, as a
JavaScript `Map` holds at most one entry per key). -/
def assocFind {α : Type} (k : String) : List (String × α) → Option α
  | [] => none
  | (k', v) :: rest => if k' = k then some v else assocFind k rest

/-- Update in an association list: `Map.set` replaces in place when the key
exists and appends otherwise. -/
def assocSet {α : Type} (k : String) (v : α) : List (String × α) → List (String × α)
  | [] => [(k, v)]
  | (k', v') :: rest => if k' = k then (k, v) :: rest else (k', v') :: assocSet k v rest

/-- The open-document cache: `data` maps URIs to snapshots,
`parentToChildUri` maps a notebook URI to the set of its cell URIs. -/
structure DocCache where
  data : List (String × ICacheData)
  parentToChild : List (String × List String)

/-- The empty cache (`new DocCache()`). -/
def DocCache.empty : DocCache := ⟨[], []⟩

/-- `DocCache.getData`: the snapshot for a URI, or absent. -/
def DocCache.getData (c : DocCache) (uri : String) : Option ICacheData :=
  assocFind uri c.data

/-- `DocCache.setData`: replaces any prior snapshot wholesale. -/
def DocCache.setData (c : DocCache) (uri : String) (d : ICacheData) : DocCache :=
  { c with data := assocSet uri d c.data }

/-- `Set.add` on an insertion-ordered duplicate-free list. -/
def addChild (child : String) (ch : List String) : List String :=
  if child ∈ ch then ch else ch ++ [child]

/-- `DocCache.setParentToChildUri`: creates the parent's (empty) entry when
missing, then adds the child to its set.  Nothing detaches the child from
any other parent's set. -/
def DocCache.setParentToChildUri (c : DocCache) (parentUri childUri : String) :
    DocCache :=
  match assocFind parentUri c.parentToChild with
  | some ch => { c with parentToChild := assocSet parentUri (addChild childUri ch) c.parentToChild }
  | none => { c with parentToChild := c.parentToChild ++ [(parentUri, addChild childUri [])] }

/-- One step of the first pass of `DocCache.removeUri` over a parent's child
set: when the removed URI is in the set it is deleted from it
(`children.delete(uri)`), and the whole entry is dropped when the set
becomes empty (`this.parentToChildUri.delete(parent)`). -/
def delChild (u : String) (ch : List String) : Option (List String) :=
  if u ∈ ch then
    let ch2 := ch.filter (fun x => decide (x ≠ u))
    if ch2.isEmpty then none else some ch2
  else some ch

/-- `DocCache.removeUri`: deletes the URI's snapshot, detaches the URI from
every parent's child set (dropping emptied entries), deletes the snapshot
of every child of the URI (read from the updated map), and finally deletes
the URI's own parent entry. -/
def DocCache.removeUri (c : DocCache) (u : String) : DocCache :=
  let data1 := c.data.filter (fun kv => decide (kv.1 ≠ u))
  let ptc1 := c.parentToChild.filterMap
    (fun pc => (delChild u pc.2).map (fun ch => (pc.1, ch)))
  let childs := (assocFind u ptc1).getD []
  { data := data1.filter (fun kv => decide (kv.1 ∉ childs))
    parentToChild := ptc1.filter (fun pc => decide (pc.1 ≠ u)) }

/-- The set of children registered under a parent URI. -/
def DocCache.childrenOf (c : DocCache) (p : String) : List String :=
  (assocFind p c.parentToChild).getD []

/-- The cached definitions of a single URI (empty when absent). -/
def ownDefs (c : DocCache) (u : String) : List IDefinition :=
  match c.getData u with
  | some d => d.defs
  | none => []

/-- The sibling pass of `DocCache.iterDefs`: for every parent whose child
set holds the URI, the definitions of every other child of that parent, in
set order. -/
def sibDefs (c : DocCache) (u : String) : List IDefinition :=
  c.parentToChild.flatMap fun pc =>
    if u ∈ pc.2 then (pc.2.filter (fun x => decide (x ≠ u))).flatMap (ownDefs c) else []

/-- The `yielded` bookkeeping of the distinct iteration: the first occurrence
of each key is kept, later ones are dropped. -/
def dedupKeys : List IDefinition → List String → List IDefinition
  | [], _ => []
  | d :: ds, seen =>
    if d.key ∈ seen then dedupKeys ds seen
    else d :: dedupKeys ds (d.key :: seen)

/-- `DocCache.iterDefs(uri, distinct)` materialised as a list: the URI's own
definitions, then the sibling definitions, deduplicated by key when
`distinct`. -/
def DocCache.iterDefs (c : DocCache) (u : String) (distinct : Bool) :
    List IDefinition :=
  let defs := ownDefs c u ++ sibDefs c u
  if distinct then dedupKeys defs [] else defs

/-! ### The project target index (`projectDatabase`) -/

/-- The project-wide target database: a flat, insertion-ordered collection
of target records (the loki collection returns matches in insertion
order). -/
structure ProjectDB where
  targets : List ITargetData
deriving Repr, DecidableEq

/-- The empty database (`new projectDatabase()`). -/
def ProjectDB.empty : ProjectDB := ⟨[]⟩

/-- `projectDatabase.clear`: drops all records. -/
def ProjectDB.clear (_db : ProjectDB) : ProjectDB := ⟨[]⟩

/-- `projectDatabase.removeUri`: `findAndRemove({ uri })` removes every
record owned by the URI. -/
def ProjectDB.removeUri (db : ProjectDB) (u : String) : ProjectDB :=
  ⟨db.targets.filter (fun t => decide (t.uri ≠ u))⟩

/-- `projectDatabase.insertTargets`: append-only bulk insert. -/
def ProjectDB.insertTargets (db : ProjectDB) (ts : List ITargetData) : ProjectDB :=
  ⟨db.targets ++ ts⟩

/-- `projectDatabase.getTargets`: `find({ name })`, every match in insertion
order. -/
def ProjectDB.getTargets (db : ProjectDB) (name : String) : List ITargetData :=
  db.targets.filter (fun t => t.name == name)

/-- The `yielded` bookkeeping of `iterTargets`' distinct iteration. -/
def dedupNames : List ITargetData → List String → List ITargetData
  | [], _ => []
  | t :: ts, seen =>
    if t.name ∈ seen then dedupNames ts seen
    else t :: dedupNames ts (t.name :: seen)

/-- `projectDatabase.iterTargets(distinct, filter)` materialised as a list:
the records matching the filter, first-per-name only when `distinct`. -/
def ProjectDB.iterTargets (db : ProjectDB) (distinct : Bool)
    (filter : ITargetData → Bool) : List ITargetData :=
  let found := db.targets.filter filter
  if distinct then dedupNames found [] else found

/-! ### Analysis entry points (`Server`) -/

/-- The two engine-owned stores of the server. -/
structure ServerState where
  cache : DocCache
  db : ProjectDB

/-- The outputs of the external `md.parse` call that `parseTextDocument`
post-processes: the token stream and the `env.references` side table
(already mapped to `IDefinition` records). -/
structure ParseInput where
  tokens : List Token
  defs : List IDefinition

/-- The result record of `Server.parseTextDocument`. -/
structure ParseData where
  tokens : List Token
  lineToTokenIndex : Nat → List Nat
  definitions : List IDefinition
  targets : List ITargetData

/-- `Server.parseTextDocument`: builds the line-to-token index from the
tokens and stamps the `myst_target` tokens into target records. -/
def parseTextDocument (uri : String) (p : ParseInput) : ParseData :=
  { tokens := p.tokens
    lineToTokenIndex := buildIndex p.tokens
    definitions := p.defs
    targets := mkTargets uri p.tokens }

/-- `Server.analyseTextDocument`: purge the URI from the database and the
cache, re-parse, store the snapshot in the cache and the targets in the
database. -/
def analyseTextDocument (st : ServerState) (uri : String) (p : ParseInput) :
    ServerState :=
  let db1 := st.db.removeUri uri
  let cache1 := st.cache.removeUri uri
  let d := parseTextDocument uri p
  { cache := cache1.setData uri
      { tokens := d.tokens, lineToTokenIndex := d.lineToTokenIndex, defs := d.definitions }
    db := db1.insertTargets d.targets }

/-- `Server.analyzeProject`: a single `db.clear()` followed by, for each
discovered file, a parse and `db.insertTargets`; the document cache is
never touched. -/
def analyzeProject (st : ServerState) (files : List (String × ParseInput)) :
    ServerState :=
  { cache := st.cache
    db := files.foldl
      (fun db f => db.insertTargets (parseTextDocument f.1 f.2).targets)
      st.db.clear }

/-- The `documents.onDidClose` handler:
`this.cache.removeUri(e.document.uri)` — the cache entry is removed; the
project database is not touched. -/
def onDocClose (st : ServerState) (uri : String) : ServerState :=
  { st with cache := st.cache.removeUri uri }

/-! ### Association-list lemmas -/

/-- A key is found exactly when some entry carries it. -/
theorem assocFind_eq_none {α : Type} {k : String} {l : List (String × α)} :
    assocFind k l = none ↔ ∀ v, (k, v) ∉ l := by
  induction l with
  | nil => simp [assocFind]
  | cons kv rest ih =>
    obtain ⟨k', v'⟩ := kv
    by_cases h : k' = k
    · subst h
      simp only [assocFind, if_pos rfl]
      constructor
      · intro hc; exact absurd hc (by simp)
      · intro hall; exact absurd (hall v') (by simp [List.mem_cons])
    · simp only [assocFind, if_neg h, ih]
      constructor
      · intro hall v hv
        rcases List.mem_cons.mp hv with heq | hm
        · exact h (by injection heq with h1 _; exact h1.symm)
        · exact hall v hm
      · intro hall v hv
        exact hall v (List.mem_cons_of_mem _ hv)

/-- A found value belongs to the list. -/
theorem assocFind_mem {α : Type} {k : String} {l : List (String × α)} {v : α}
    (h : assocFind k l = some v) : (k, v) ∈ l := by
  induction l with
  | nil => simp [assocFind] at h
  | cons kv rest ih =>
    obtain ⟨k', v'⟩ := kv
    by_cases hk : k' = k
    · subst hk
      simp only [assocFind, if_true, eq_self_iff_true, Option.some.injEq] at h
      subst h; exact List.mem_cons_self _ _
    · simp only [assocFind, if_neg hk] at h
      exact List.mem_cons_of_mem _ (ih h)

/-- Looking up the key just set. -/
theorem assocFind_assocSet_self {α : Type} (k : String) (v : α)
    (l : List (String × α)) : assocFind k (assocSet k v l) = some v := by
  induction l with
  | nil => simp [assocSet, assocFind]
  | cons kv rest ih =>
    obtain ⟨k', v'⟩ := kv
    by_cases hk : k' = k
    · subst hk; simp [assocSet, assocFind]
    · simp [assocSet, assocFind, hk, ih]

/-- Filtering with a predicate that keeps every entry of a key does not
change that key's lookup. -/
theorem assocFind_filter_keyTrue {α : Type} {k : String}
    {f : String × α → Bool} {l : List (String × α)}
    (hf : ∀ v, f (k, v) = true) :
    assocFind k (l.filter f) = assocFind k l := by
  induction l with
  | nil => rfl
  | cons kv rest ih =>
    obtain ⟨k', v'⟩ := kv
    by_cases hk : k' = k
    · subst hk
      simp [List.filter_cons, hf v', assocFind, ih]
    · cases hfk : f (k', v') <;>
        simp [List.filter_cons, hfk, assocFind, hk, ih]

/-- Filtering with a predicate that rejects every entry of a key makes that
key's lookup absent. -/
theorem assocFind_filter_keyFalse {α : Type} {k : String}
    {f : String × α → Bool} {l : List (String × α)}
    (hf : ∀ v, f (k, v) = false) :
    assocFind k (l.filter f) = none := by
  refine assocFind_eq_none.mpr (fun v hv => ?_)
  have := (List.mem_filter.mp hv).2
  rw [hf v] at this
  exact absurd this (by simp)

/-- A key absent from the key column is not found. -/
theorem assocFind_eq_none_of_not_keys {α : Type} {k : String}
    {l : List (String × α)} (h : k ∉ l.map Prod.fst) : assocFind k l = none := by
  refine assocFind_eq_none.mpr (fun v hv => ?_)
  exact h (List.mem_map.mpr ⟨(k, v), hv, rfl⟩)

/-- Lookup through the first pass of `DocCache.removeUri`, for a cache whose
parent map has no duplicate keys: the looked-up child set is the old one
with the removed URI deleted, and absent when the deletion emptied it. -/
theorem assocFind_filterMap_delChild (u k : String)
    (l : List (String × List String)) (hnd : (l.map Prod.fst).Nodup) :
    assocFind k (l.filterMap (fun pc => (delChild u pc.2).map (fun ch => (pc.1, ch))))
      = (assocFind k l).bind (delChild u) := by
  induction l with
  | nil => rfl
  | cons pc rest ih =>
    obtain ⟨k', ch'⟩ := pc
    have hnd' : (rest.map Prod.fst).Nodup := (List.nodup_cons.mp hnd).2
    have hknotin : k' ∉ rest.map Prod.fst := (List.nodup_cons.mp hnd).1
    by_cases hk : k' = k
    · subst hk
      cases hdel : delChild u ch' with
      | none =>
        simp only [List.filterMap_cons, hdel, Option.map_none', assocFind,
          if_true, eq_self_iff_true, Option.some_bind, hdel]
        refine assocFind_eq_none_of_not_keys ?_
        intro hmem
        apply hknotin
        rcases List.mem_map.mp hmem with ⟨pc2, hpc2, hfst⟩
        rcases List.mem_filterMap.mp hpc2 with ⟨pc3, hpc3, hmap⟩
        rcases Option.map_eq_some'.mp hmap with ⟨ch3, _, hpair⟩
        refine List.mem_map.mpr ⟨pc3, hpc3, ?_⟩
        rw [← hfst, ← hpair]
      | some ch2 =>
        simp [List.filterMap_cons, hdel, assocFind, hdel]
    · cases hdel : delChild u ch' with
      | none =>
        simp only [List.filterMap_cons, hdel, Option.map_none', assocFind,
          if_neg hk, ih hnd']
      | some ch2 =>
        simp only [List.filterMap_cons, hdel, Option.map_some', assocFind,
          if_neg hk, ih hnd']

/-- Removing a URI always deletes that URI's own snapshot. -/
theorem getData_removeUri_self (c : DocCache) (u : String) :
    (c.removeUri u).getData u = none := by
  refine assocFind_eq_none.mpr (fun v hv => ?_)
  have hv1 := (List.mem_filter.mp hv).1
  have hv2 := (List.mem_filter.mp hv1).2
  simp at hv2

/-! ### Claim C1 — document close -/

/-- A concrete open document: a snapshot in the cache and one target record
named `t1` declared only in `file:///a.md`. -/
def c1State : ServerState :=
  { cache := ⟨[("file:///a.md", ⟨[], fun _ => [], []⟩)], []⟩
    db := ⟨[⟨"file:///a.md", "t1", 0⟩]⟩ }

/-- Claim C1, counterexample: after the document-close event for
`file:///a.md` the Document Cache snapshot is gone, but the Project Target
Index still holds the target record owned by that URI — `getTargets "t1"`
is not empty, contradicting the claim that it returns the empty list (the
`onDidClose` handler only calls `cache.removeUri`, never `db.removeUri`). -/
theorem docClose_leaves_targets_cex :
    (onDocClose c1State "file:///a.md").db.getTargets "t1"
        = [⟨"file:///a.md", "t1", 0⟩]
    ∧ ¬ ((onDocClose c1State "file:///a.md").db.getTargets "t1" = [])
    ∧ ((onDocClose c1State "file:///a.md").cache.getData "file:///a.md").isNone
        = true := by
  refine ⟨by decide, by decide, ?_⟩
  rfl

/-- Claim C1, amended: processing the document-close event removes the
URI's snapshot from the Document Cache (`getData` becomes absent) but
leaves the Project Target Index completely unchanged — the URI's target
records are only removed by cell removal, watched-file deletion, or the
URI's next re-analysis. -/
theorem docClose_cache_only (st : ServerState) (uri : String) :
    (onDocClose st uri).cache.getData uri = none
    ∧ (onDocClose st uri).db = st.db :=
  ⟨getData_removeUri_self st.cache uri, rfl⟩

/-! ### Claim C2 — the div example -/

/-- The lines of the spec's div example,
`":::{note}\ntitle: hi\n:::\nfoo\n"`. -/
def divExampleLines : List (List Char) :=
  [":::{note}".toList, "title: hi".toList, ":::".toList, "foo".toList]

/-- Claim C2, counterexample: on this input the `div_open` token carries no
option metadata at all (`optMap = none`; `meta.options` is only ever set
when `optMap` is, because `title: hi` does not start with the single `:`
an option line requires) and its span is the half-open range `[0, 2)` —
`token.map = [0, 2]`, the closing line being excluded — not `[0, 3)` as
claimed. -/
theorem div_example_cex :
    (parseDiv 0 divExampleLines 0).map (fun t => (t.optMap, t.mapStart, t.mapEnd))
        = some (none, 0, 2)
    ∧ ¬ ((parseDiv 0 divExampleLines 0).map (fun t => t.mapEnd) = some 3) := by
  constructor <;> decide

/-- Claim C2, amended: parsing the example with the div extension yields a
`div_open` token with markup `:::`, info `{note}`, no option metadata
(`title: hi` is not an option line, so the YAML decode never runs), span
`[0, 2)`; the nested content range is line 1 only, and the parser resumes
at line 3, so `foo` (line 3) is tokenized outside the div. -/
theorem div_example_parse :
    parseDiv 0 divExampleLines 0 = some
      { markup := ":::".toList
        info := "{note}".toList
        mapStart := 0
        mapEnd := 2
        optMap := none
        contentStart := 1
        contentEnd := 2
        resumeLine := 3 } := by
  decide

/-! ### Claim C9 — analysis frame effects -/

/-- Every extracted target record is stamped with the parsed document's
URI. -/
theorem mkTargets_uri (uri : String) (tokens : List Token) :
    ∀ t ∈ mkTargets uri tokens, t.uri = uri := by
  intro t ht
  rcases List.mem_map.mp ht with ⟨t0, _, rfl⟩
  rfl

/-- Accumulating `insertTargets` over a file list appends each file's
targets in order. -/
theorem foldl_insertTargets (files : List (String × ParseInput)) (db : ProjectDB) :
    (files.foldl
        (fun db f => db.insertTargets (parseTextDocument f.1 f.2).targets)
        db).targets
      = db.targets ++ files.flatMap (fun f => mkTargets f.1 f.2.tokens) := by
  induction files generalizing db with
  | nil => simp
  | cons f rest ih =>
    simp only [List.foldl_cons, List.flatMap_cons, ih]
    simp [ProjectDB.insertTargets, parseTextDocument, List.append_assoc]

/-- Claim C9: re-analysing one open document purges the URI's entries from
both stores and then inserts the fresh results — afterwards the target
records owned by the URI are exactly the latest parse's targets, target
records of every other URI are untouched, and the cache holds the fresh
snapshot; bulk project analysis leaves the Document Cache untouched and
rebuilds the whole target index from one `clear()` plus the scanned files'
targets (independently of its previous contents). -/
theorem analyse_frame_spec (st : ServerState) (uri : String) (p : ParseInput)
    (files : List (String × ParseInput)) :
    ((analyseTextDocument st uri p).db.targets.filter (fun t => t.uri == uri)
        = mkTargets uri p.tokens)
    ∧ ((analyseTextDocument st uri p).db.targets.filter (fun t => decide (t.uri ≠ uri))
        = st.db.targets.filter (fun t => decide (t.uri ≠ uri)))
    ∧ ((analyseTextDocument st uri p).cache.getData uri
        = some ⟨p.tokens, buildIndex p.tokens, p.defs⟩)
    ∧ ((analyzeProject st files).cache = st.cache)
    ∧ ((analyzeProject st files).db.targets
        = files.flatMap (fun f => mkTargets f.1 f.2.tokens)) := by
  refine ⟨?_, ?_, ?_, rfl, ?_⟩
  · show ((st.db.targets.filter _ ++ mkTargets uri p.tokens).filter _) = _
    rw [List.filter_append]
    have h1 : (st.db.targets.filter (fun t => decide (t.uri ≠ uri))).filter
        (fun t => t.uri == uri) = [] := by
      rw [List.filter_filter]
      refine List.filter_eq_nil_iff.mpr (fun t _ => ?_)
      by_cases h : t.uri = uri <;> simp [h]
    have h2 : (mkTargets uri p.tokens).filter (fun t => t.uri == uri)
        = mkTargets uri p.tokens := by
      refine List.filter_eq_self.mpr (fun t ht => ?_)
      simp [mkTargets_uri uri p.tokens t ht]
    rw [h1, h2, List.nil_append]
  · show ((st.db.targets.filter _ ++ mkTargets uri p.tokens).filter _) = _
    rw [List.filter_append]
    have h1 : (st.db.targets.filter (fun t => decide (t.uri ≠ uri))).filter
        (fun t => decide (t.uri ≠ uri))
        = st.db.targets.filter (fun t => decide (t.uri ≠ uri)) := by
      refine List.filter_eq_self.mpr (fun t ht => (List.mem_filter.mp ht).2)
    have h2 : (mkTargets uri p.tokens).filter (fun t => decide (t.uri ≠ uri)) = [] := by
      refine List.filter_eq_nil_iff.mpr (fun t ht => ?_)
      simp [mkTargets_uri uri p.tokens t ht]
    rw [h1, h2, List.append_nil]
  · show DocCache.getData (DocCache.setData _ uri _) uri = _
    exact assocFind_assocSet_self uri _ _
  · show (files.foldl _ st.db.clear).targets = _
    rw [foldl_insertTargets]
    rfl

/-! ### Claim C7 — duplicate target names -/

/-- Claim C7: `insertTargets` is append-only — after two records with the
same name are inserted from two different URIs, `getTargets` on that name
returns both in insertion order, `iterTargets` with `distinct = true`
yields only the first-inserted one, and with `distinct = false` yields
every matching record. -/
theorem targets_duplicate_spec (t1 t2 : ITargetData)
    (hname : t1.name = t2.name) (_huri : t1.uri ≠ t2.uri) :
    ((ProjectDB.empty.insertTargets [t1]).insertTargets [t2]).getTargets t1.name
        = [t1, t2]
    ∧ ((ProjectDB.empty.insertTargets [t1]).insertTargets [t2]).iterTargets true
        (fun _ => true) = [t1]
    ∧ ((ProjectDB.empty.insertTargets [t1]).insertTargets [t2]).iterTargets false
        (fun _ => true) = [t1, t2] := by
  refine ⟨?_, ?_, ?_⟩ <;>
    simp [ProjectDB.empty, ProjectDB.insertTargets, ProjectDB.getTargets,
      ProjectDB.iterTargets, dedupNames, hname]

/-- Claim C7, witness: two concrete records named `x` owned by two files. -/
theorem targets_duplicate_spec_witness :
    ((⟨"file:///a.md", "x", 0⟩ : ITargetData).name
        = (⟨"file:///b.md", "x", 3⟩ : ITargetData).name)
    ∧ ((⟨"file:///a.md", "x", 0⟩ : ITargetData).uri
        ≠ (⟨"file:///b.md", "x", 3⟩ : ITargetData).uri)
    ∧ ((ProjectDB.empty.insertTargets [⟨"file:///a.md", "x", 0⟩]).insertTargets
          [⟨"file:///b.md", "x", 3⟩]).getTargets "x"
        = [⟨"file:///a.md", "x", 0⟩, ⟨"file:///b.md", "x", 3⟩]
    ∧ ((ProjectDB.empty.insertTargets [⟨"file:///a.md", "x", 0⟩]).insertTargets
          [⟨"file:///b.md", "x", 3⟩]).iterTargets true (fun _ => true)
        = [⟨"file:///a.md", "x", 0⟩]
    ∧ ((ProjectDB.empty.insertTargets [⟨"file:///a.md", "x", 0⟩]).insertTargets
          [⟨"file:///b.md", "x", 3⟩]).iterTargets false (fun _ => true)
        = [⟨"file:///a.md", "x", 0⟩, ⟨"file:///b.md", "x", 3⟩] := by
  have h := targets_duplicate_spec ⟨"file:///a.md", "x", 0⟩ ⟨"file:///b.md", "x", 3⟩
    rfl (by decide)
  exact ⟨rfl, by decide, h.1, h.2.1, h.2.2⟩

/-! ### Claim C6 — the line-to-token index -/

/-- Membership in a bucket built from position `i0` on: the witnesses are
offset by `i0`. -/
theorem mem_buildIndexFrom (ts : List Token) (i0 j x : Nat) :
    x ∈ buildIndexFrom i0 ts j ↔
      ∃ k t s e, ts[k]? = some t ∧ x = i0 + k ∧ t.map = some (s, e)
        ∧ s ≤ j ∧ j < e := by
  induction ts generalizing i0 with
  | nil => simp [buildIndexFrom]
  | cons t ts ih =>
    constructor
    · intro hx
      rcases List.mem_append.mp hx with hx | hx
      · cases hm : t.map with
        | none => rw [hm] at hx; simp [spanHits] at hx
        | some se =>
          obtain ⟨s, e⟩ := se
          rw [hm] at hx
          by_cases hc : s ≤ j ∧ j < e
          · simp [spanHits, hc] at hx
            exact ⟨0, t, s, e, by simp, by omega, hm, hc.1, hc.2⟩
          · simp [spanHits, hc] at hx
      · rcases (ih (i0 + 1)).mp hx with ⟨k, t', s, e, hget, hxk, hmap, hle, hlt⟩
        exact ⟨k + 1, t', s, e, by simpa using hget, by omega, hmap, hle, hlt⟩
    · rintro ⟨k, t', s, e, hget, rfl, hmap, hle, hlt⟩
      cases k with
      | zero =>
        refine List.mem_append.mpr (Or.inl ?_)
        simp only [List.getElem?_cons_zero, Option.some.injEq] at hget
        subst hget
        rw [hmap]
        simp [spanHits, hle, hlt]
      | succ k =>
        refine List.mem_append.mpr (Or.inr ?_)
        refine (ih (i0 + 1)).mpr ⟨k, t', s, e, by simpa using hget, by omega,
          hmap, hle, hlt⟩

/-- Claim C6: position `i` is recorded in the bucket of line `j` exactly
when the `i`-th token exists, has a span `[s, e)`, and `s ≤ j < e`; in
particular a token without a span is recorded at no line. -/
theorem lineToTokenIndex_spec (tokens : List Token) (j i : Nat) :
    i ∈ buildIndex tokens j ↔
      ∃ t s e, tokens[i]? = some t ∧ t.map = some (s, e) ∧ s ≤ j ∧ j < e := by
  rw [buildIndex, mem_buildIndexFrom]
  constructor
  · rintro ⟨k, t, s, e, hget, rfl, hmap, hle, hlt⟩
    exact ⟨t, s, e, by simpa using hget, hmap, hle, hlt⟩
  · rintro ⟨t, s, e, hget, hmap, hle, hlt⟩
    exact ⟨i, t, s, e, hget, by omega, hmap, hle, hlt⟩

/-! ### Claim C3 — div close-line search -/

/-- The scan stops, consuming the close marker, at a matching line reached
without any earlier stop. -/
theorem scanClose_close_at (bi n : Nat) (l : List Char) (post : List (List Char))
    (hind : bi ≤ lineIndent l) (hclose : isCloseLine bi n l = true) :
    ∀ (pre : List (List Char)) (idx : Nat),
      (∀ l' ∈ pre, divBreakLine bi l' = false ∧ isCloseLine bi n l' = false) →
      scanClose bi n (pre ++ l :: post) idx = (idx + pre.length, true) := by
  intro pre
  induction pre with
  | nil =>
    intro idx _
    have hbrk : divBreakLine bi l = false := by
      have : ¬ (lineIndent l < bi) := by omega
      simp [divBreakLine, this]
    simp [scanClose, hbrk, hclose]
  | cons l0 pre ih =>
    intro idx hpre
    have h0 := hpre l0 (List.mem_cons_self _ _)
    rw [List.cons_append]
    simp only [scanClose, h0.1, h0.2, Bool.false_eq_true, if_false]
    rw [ih (idx + 1) (fun l' hl' => hpre l' (List.mem_cons_of_mem _ hl'))]
    simp only [List.length_cons, Prod.mk.injEq, and_true]
    omega

/-- A line whose colon run is too short never stops the scan. -/
theorem scanClose_skip_small (bi n idx : Nat) (ls : List (List Char))
    (l : List Char) (_hhead : (lineRest l).head? = some ':')
    (hind : bi ≤ lineIndent l) (hrun : colonRun (lineRest l) < n) :
    scanClose bi n (l :: ls) idx = scanClose bi n ls (idx + 1) := by
  have hbrk : divBreakLine bi l = false := by
    have : ¬ (lineIndent l < bi) := by omega
    simp [divBreakLine, this]
  have hrun' : ¬ (n ≤ colonRun (lineRest l)) := by omega
  have hcl : isCloseLine bi n l = false := by
    simp [isCloseLine, hrun']
  simp [scanClose, hbrk, hcl]

/-- Claim C3: (1) for a div opened by a run of `n` colons, the first
subsequent line carrying a colon run of length at least `n`, indented at
least the block indent and less than four columns past it, with only
space/tab after the run — formally, satisfying `isCloseLine` — stops the
close search exactly at that line with `auto_closed = true`, provided no
earlier line stopped the scan; (2) a line whose colon run is shorter than
`n`, even if it otherwise looks like a close line, does not stop the scan,
which continues past it. -/
theorem div_close_scan_spec :
    (∀ (bi n idx : Nat) (pre post : List (List Char)) (l : List Char),
        (∀ l' ∈ pre, divBreakLine bi l' = false ∧ isCloseLine bi n l' = false) →
        bi ≤ lineIndent l →
        isCloseLine bi n l = true →
        scanClose bi n (pre ++ l :: post) idx = (idx + pre.length, true))
    ∧ (∀ (bi n idx : Nat) (ls : List (List Char)) (l : List Char),
        (lineRest l).head? = some ':' →
        bi ≤ lineIndent l →
        colonRun (lineRest l) < n →
        scanClose bi n (l :: ls) idx = scanClose bi n ls (idx + 1)) :=
  ⟨fun bi n idx pre post l hpre hind hclose =>
      scanClose_close_at bi n l post hind hclose pre idx hpre,
   fun bi n idx ls l hhead hind hrun =>
      scanClose_skip_small bi n idx ls l hhead hind hrun⟩

/-- Claim C3, witness: a block opened by `:::` (n = 3); the lines ` x` and
`::` (a colon run of 2 < 3, otherwise matching) are scanned past, and the
line `::::  ` (run of 4 ≥ 3, trailing spaces only) closes the block at its
exact position. -/
theorem div_close_scan_spec_witness :
    (∀ l' ∈ [" x".toList, "::".toList],
        divBreakLine 0 l' = false ∧ isCloseLine 0 3 l' = false)
    ∧ (0 ≤ lineIndent "::::  ".toList)
    ∧ isCloseLine 0 3 "::::  ".toList = true
    ∧ scanClose 0 3 ([" x".toList, "::".toList] ++ "::::  ".toList :: ["y".toList]) 1
        = (3, true)
    ∧ ((lineRest "::".toList).head? = some ':')
    ∧ colonRun (lineRest "::".toList) < 3
    ∧ scanClose 0 3 ("::".toList :: ["::::".toList]) 5
        = scanClose 0 3 ["::::".toList] 6 := by
  refine ⟨by decide, by decide, by decide, ?_, by decide, by decide, ?_⟩
  · exact div_close_scan_spec.1 0 3 1 [" x".toList, "::".toList] ["y".toList]
      "::::  ".toList (by decide) (by decide) (by decide)
  · exact div_close_scan_spec.2 0 3 5 ["::::".toList] "::".toList
      (by decide) (by decide) (by decide)

/-! ### Claim C10 — the line-comment rule -/

/-- Characterisation of the continuation loop: it consumes exactly the
leading `%`-starting lines, appending `"\n" + text` for each. -/
theorem commentCont_spec (ls : List (List Char)) (content : List Char)
    (count : Nat) :
    commentCont ls content count =
      (content ++ (ls.takeWhile commentLine).flatMap
          (fun li => '\n' :: commentText li),
       count + (ls.takeWhile commentLine).length) := by
  induction ls generalizing content count with
  | nil => simp [commentCont]
  | cons l ls ih =>
    cases hc : commentLine l with
    | false => simp [commentCont, hc, List.takeWhile_cons]
    | true =>
      simp only [commentCont, hc, if_true, List.takeWhile_cons]
      rw [ih]
      simp [List.append_assoc, Prod.mk.injEq]
      omega

/-- Joining with newline separators equals prepending a newline to every
later piece. -/
theorem intercalate_newline (x : List Char) (xs : List (List Char)) :
    List.intercalate ['\n'] (x :: xs) = x ++ xs.flatMap (fun y => '\n' :: y) := by
  induction xs generalizing x with
  | nil => simp [List.intercalate]
  | cons y ys ih =>
    have hstep : List.intercalate ['\n'] (x :: y :: ys)
        = x ++ '\n' :: List.intercalate ['\n'] (y :: ys) := by
      simp [List.intercalate]
    rw [hstep, ih]
    simp

/-- Claim C10: when the first line passes the indent restriction
(less than four columns past the block indent) and starts with `%`, the
rule consumes it plus every immediately following `%`-starting line — with
no indentation restriction on those — and produces the right-trimmed
after-`%` texts joined with newlines, spanning `[startLine, one past the
last consumed line)`. -/
theorem line_comment_spec (blkIndent : Nat) (lines : List (List Char))
    (startLine : Nat) (l : List Char)
    (hget : lines.get? startLine = some l)
    (hind : lineIndent l < blkIndent + 4)
    (hpc : commentLine l = true) :
    parseLineComment blkIndent lines startLine = some
      { content := List.intercalate ['\n']
          ((l :: (lines.drop (startLine + 1)).takeWhile commentLine).map
            commentText)
        mapStart := startLine
        mapEnd := startLine + 1
          + ((lines.drop (startLine + 1)).takeWhile commentLine).length } := by
  have h1 : ¬ (blkIndent + 4 ≤ lineIndent l) := by omega
  simp only [parseLineComment, hget, if_neg h1, hpc, Bool.not_true,
    Bool.false_eq_true, if_false]
  rw [commentCont_spec]
  have h2 : ∀ (xs : List (List Char)),
      (xs.map commentText).flatMap (fun y => '\n' :: y)
        = xs.flatMap (fun li => '\n' :: commentText li) := by
    intro xs
    induction xs with
    | nil => rfl
    | cons a as ihx => simp [ihx]
  simp [List.map_cons, intercalate_newline, h2]

/-- A concrete comment block: an unindented `%` line, a continuation line
indented six columns, and a stopping line. -/
def c10Lines : List (List Char) :=
  ["% a".toList, "      % b".toList, "c".toList]

/-- Claim C10, witness: the deeply indented second line is still consumed
into the comment token, whose span is `[0, 2)`. -/
theorem line_comment_spec_witness :
    (c10Lines.get? 0 = some "% a".toList)
    ∧ (lineIndent "% a".toList < 0 + 4)
    ∧ (commentLine "% a".toList = true)
    ∧ parseLineComment 0 c10Lines 0 = some
        { content := List.intercalate ['\n']
            (("% a".toList :: (c10Lines.drop (0 + 1)).takeWhile commentLine).map
              commentText)
          mapStart := 0
          mapEnd := 0 + 1 + ((c10Lines.drop (0 + 1)).takeWhile commentLine).length } := by
  refine ⟨rfl, by decide, by decide, ?_⟩
  exact line_comment_spec 0 c10Lines 0 "% a".toList rfl (by decide) (by decide)

/-! ### Claim C4 — the parent/child relation -/

/-- A cache built by registering the same cell under two different
notebooks. -/
def twoParentCache : DocCache :=
  (DocCache.empty.setParentToChildUri "nb1" "cell").setParentToChildUri "nb2" "cell"

/-- Claim C4, counterexample: the sequence
`setParentToChildUri "nb1" "cell"; setParentToChildUri "nb2" "cell"` leaves
`cell` registered under both parents — `setParentToChildUri` never detaches
a child from a previous parent, so the at-most-one-parent invariant is not
kept across every operation sequence. -/
theorem child_two_parents_cex :
    (twoParentCache.parentToChild.filter (fun pc => decide ("cell" ∈ pc.2))).map
        Prod.fst = ["nb1", "nb2"]
    ∧ ¬ ((twoParentCache.parentToChild.filter
          (fun pc => decide ("cell" ∈ pc.2))).length ≤ 1) := by
  constructor <;> decide

/-- Removing a parent URI deletes the snapshot of each of its (other)
children. -/
theorem getData_removeUri_child (c : DocCache) (u ch : String)
    (hnd : (c.parentToChild.map Prod.fst).Nodup)
    (hch : ch ∈ c.childrenOf u) (hne : ch ≠ u) :
    (c.removeUri u).getData ch = none := by
  unfold DocCache.childrenOf at hch
  cases hfind : assocFind u c.parentToChild with
  | none => rw [hfind] at hch; simp at hch
  | some chs =>
    rw [hfind] at hch
    simp only [Option.getD_some] at hch
    have hchfilter : ch ∈ chs.filter (fun x => decide (x ≠ u)) :=
      List.mem_filter.mpr ⟨hch, by simp [hne]⟩
    have hdel : ∃ chs2, delChild u chs = some chs2 ∧ ch ∈ chs2 := by
      unfold delChild
      by_cases hu : u ∈ chs
      · rw [if_pos hu]
        have hne2 : ¬ ((chs.filter (fun x => decide (x ≠ u))).isEmpty = true) := by
          rw [List.isEmpty_iff]
          intro h0
          rw [h0] at hchfilter
          simp at hchfilter
        rw [if_neg hne2]
        exact ⟨_, rfl, hchfilter⟩
      · rw [if_neg hu]
        exact ⟨chs, rfl, hch⟩
    obtain ⟨chs2, hdel2, hch2⟩ := hdel
    show assocFind ch _ = none
    refine assocFind_eq_none.mpr (fun v hv => ?_)
    have h2 := (List.mem_filter.mp hv).2
    rw [assocFind_filterMap_delChild u u c.parentToChild hnd, hfind] at h2
    simp only [Option.some_bind, hdel2, Option.getD_some] at h2
    simp at h2
    exact h2 hch2

/-- After removing a URI it is in no parent's child set. -/
theorem removeUri_not_child (c : DocCache) (u p : String) :
    u ∉ (c.removeUri u).childrenOf p := by
  unfold DocCache.childrenOf
  cases hfind : assocFind p (c.removeUri u).parentToChild with
  | none => simp
  | some chs =>
    simp only [Option.getD_some]
    have hmem := assocFind_mem hfind
    have hmem1 := (List.mem_filter.mp hmem).1
    rcases List.mem_filterMap.mp hmem1 with ⟨pc, _, hmap⟩
    rcases Option.map_eq_some'.mp hmap with ⟨ch0, hdel, hpair⟩
    have hchs : chs = ch0 := by
      injection hpair with _ h2
      exact h2.symm
    subst hchs
    unfold delChild at hdel
    by_cases hu : u ∈ pc.2
    · rw [if_pos hu] at hdel
      by_cases hemp : ((pc.2.filter (fun x => decide (x ≠ u))).isEmpty = true)
      · rw [if_pos hemp] at hdel; exact absurd hdel (by simp)
      · rw [if_neg hemp] at hdel
        have hdef : chs = pc.2.filter (fun x => decide (x ≠ u)) := by
          injection hdel with h; exact h.symm
        rw [hdef]
        intro hx
        have := (List.mem_filter.mp hx).2
        simp at this
    · rw [if_neg hu] at hdel
      have hdef : chs = pc.2 := by injection hdel with h; exact h.symm
      rw [hdef]
      exact hu

/-- Removing a URI different from a parent detaches only that URI from the
parent's set: any other URI's membership is unchanged. -/
theorem removeUri_sibling_iff (c : DocCache) (u p sib : String)
    (hnd : (c.parentToChild.map Prod.fst).Nodup)
    (hp : p ≠ u) (hsib : sib ≠ u) :
    sib ∈ (c.removeUri u).childrenOf p ↔ sib ∈ c.childrenOf p := by
  unfold DocCache.childrenOf DocCache.removeUri
  simp only
  rw [assocFind_filter_keyTrue (fun v => by simp [hp]),
    assocFind_filterMap_delChild u p c.parentToChild hnd]
  cases hfind : assocFind p c.parentToChild with
  | none => simp
  | some chs =>
    simp only [Option.some_bind, Option.getD_some]
    unfold delChild
    by_cases hu : u ∈ chs
    · rw [if_pos hu]
      by_cases hemp : ((chs.filter (fun x => decide (x ≠ u))).isEmpty = true)
      · rw [if_pos hemp]
        simp only [Option.getD_none]
        rw [List.isEmpty_iff] at hemp
        constructor
        · intro hx; simp at hx
        · intro hx
          have : sib ∈ chs.filter (fun x => decide (x ≠ u)) :=
            List.mem_filter.mpr ⟨hx, by simp [hsib]⟩
          rw [hemp] at this
          simp at this
      · rw [if_neg hemp]
        simp only [Option.getD_some]
        constructor
        · intro hx; exact (List.mem_filter.mp hx).1
        · intro hx; exact List.mem_filter.mpr ⟨hx, by simp [hsib]⟩
    · rw [if_neg hu]
      simp

/-- Claim C4, amended: `setParentToChildUri` does not enforce the
at-most-one-parent invariant (a child registered under two parents stays
under both, see the counterexample); what the code does guarantee, for a
cache whose parent map has no duplicate keys, is: removing a parent URI
deletes its own snapshot and the snapshot of every child registered under
it, and removing a child URI detaches it from every parent's child set
while leaving each sibling's membership unchanged. -/
theorem cache_remove_parent_child_spec (c : DocCache) (u p sib ch : String)
    (hnd : (c.parentToChild.map Prod.fst).Nodup) :
    (ch ∈ c.childrenOf u → ch ≠ u → (c.removeUri u).getData ch = none)
    ∧ ((c.removeUri u).getData u = none)
    ∧ (u ∉ (c.removeUri u).childrenOf p)
    ∧ (p ≠ u → sib ≠ u →
        (sib ∈ (c.removeUri u).childrenOf p ↔ sib ∈ c.childrenOf p)) :=
  ⟨fun hch hne => getData_removeUri_child c u ch hnd hch hne,
   getData_removeUri_self c u,
   removeUri_not_child c u p,
   fun hp hsib => removeUri_sibling_iff c u p sib hnd hp hsib⟩

/-- A concrete notebook cache: parent `nb` with cells `cellA`, `cellB`, all
three having snapshots. -/
def c4Cache : DocCache :=
  { data := [("nb", ⟨[], fun _ => [], []⟩), ("cellA", ⟨[], fun _ => [], []⟩),
      ("cellB", ⟨[], fun _ => [], []⟩)]
    parentToChild := [("nb", ["cellA", "cellB"])] }

/-- Claim C4, witness: on the concrete notebook cache, removing the parent
`nb` deletes `cellA`'s snapshot, and removing the cell `cellA` detaches it
from `nb`'s set while keeping `cellB` registered. -/
theorem cache_remove_parent_child_spec_witness :
    ((c4Cache.parentToChild.map Prod.fst).Nodup)
    ∧ ("cellA" ∈ c4Cache.childrenOf "nb")
    ∧ ((c4Cache.removeUri "nb").getData "cellA" = none)
    ∧ ((c4Cache.removeUri "nb").getData "nb" = none)
    ∧ ("cellA" ∉ (c4Cache.removeUri "cellA").childrenOf "nb")
    ∧ (("cellB" ∈ (c4Cache.removeUri "cellA").childrenOf "nb")
        ↔ "cellB" ∈ c4Cache.childrenOf "nb") := by
  have h1 := cache_remove_parent_child_spec c4Cache "nb" "nb" "x" "cellA" (by decide)
  have h2 := cache_remove_parent_child_spec c4Cache "cellA" "nb" "cellB" "x" (by decide)
  exact ⟨by decide, by decide, h1.1 (by decide) (by decide), h1.2.1,
    h2.2.2.1, h2.2.2.2 (by decide) (by decide)⟩

/-! ### Claim C5 — definition iteration -/

/-- A parent list with no entry containing `u` contributes no sibling
definitions. -/
theorem sibContrib_eq_nil (u : String) (g : List String → List IDefinition)
    (l : List (String × List String))
    (h : l.filter (fun pc => decide (u ∈ pc.2)) = []) :
    (l.flatMap fun pc => if u ∈ pc.2 then g pc.2 else []) = [] := by
  induction l with
  | nil => rfl
  | cons pc rest ih =>
    by_cases hm : u ∈ pc.2
    · rw [List.filter_cons_of_pos (by simp [hm])] at h
      simp at h
    · rw [List.filter_cons_of_neg (by simp [hm])] at h
      simp [List.flatMap_cons, hm, ih h]

/-- When exactly one parent entry contains `u`, the sibling pass reduces to
that entry's contribution. -/
theorem sibContrib_eq_single (u : String) (g : List String → List IDefinition)
    (l : List (String × List String)) (p : String) (chs : List String)
    (h : l.filter (fun pc => decide (u ∈ pc.2)) = [(p, chs)]) :
    (l.flatMap fun pc => if u ∈ pc.2 then g pc.2 else []) = g chs := by
  induction l with
  | nil => simp at h
  | cons pc rest ih =>
    by_cases hm : u ∈ pc.2
    · rw [List.filter_cons_of_pos (by simp [hm])] at h
      injection h with hpc hrest
      rw [List.flatMap_cons, if_pos hm, sibContrib_eq_nil u g rest hrest, hpc]
      simp
    · rw [List.filter_cons_of_neg (by simp [hm])] at h
      simp [List.flatMap_cons, hm, ih h]

/-- Filtering the deduplicated list by one key keeps only that key's first
occurrence (none when the key was already seen). -/
theorem dedupKeys_filter (l : List IDefinition) (seen : List String) (k : String) :
    (dedupKeys l seen).filter (fun d => d.key == k)
      = if k ∈ seen then [] else (l.filter (fun d => d.key == k)).take 1 := by
  induction l generalizing seen with
  | nil => simp [dedupKeys]
  | cons d ds ih =>
    by_cases hd : d.key ∈ seen
    · rw [dedupKeys, if_pos hd, ih]
      by_cases hk : k ∈ seen
      · simp [hk]
      · have hdk : ¬ ((d.key == k) = true) := by
          simp only [beq_iff_eq]
          intro h0; rw [h0] at hd; exact hk hd
        rw [if_neg hk, if_neg hk,
          List.filter_cons_of_neg (p := fun d => d.key == k) (a := d) hdk]
    · rw [dedupKeys, if_neg hd]
      by_cases hdk : d.key = k
      · have hk : k ∉ seen := by rw [← hdk]; exact hd
        have hb : ((d.key == k) = true) := by simp [hdk]
        have hks : k ∈ d.key :: seen := List.mem_cons.mpr (Or.inl hdk.symm)
        rw [List.filter_cons_of_pos (p := fun d => d.key == k) (a := d) hb, ih,
          if_pos hks, if_neg hk,
          List.filter_cons_of_pos (p := fun d => d.key == k) (a := d) hb]
        simp
      · have hb : ¬ ((d.key == k) = true) := by simp [hdk]
        rw [List.filter_cons_of_neg (p := fun d => d.key == k) (a := d) hb, ih]
        have hiff : (k ∈ d.key :: seen) ↔ (k ∈ seen) := by
          constructor
          · intro hx
            rcases List.mem_cons.mp hx with h1 | h1
            · exact absurd h1.symm hdk
            · exact h1
          · exact fun hx => List.mem_cons_of_mem _ hx
        by_cases hk : k ∈ seen
        · rw [if_pos (hiff.mpr hk), if_pos hk]
        · rw [if_neg (fun hx => hk (hiff.mp hx)), if_neg hk,
            List.filter_cons_of_neg (p := fun d => d.key == k) (a := d) hb]

/-- Claim C5: when the URI is registered as a child of exactly one parent,
`iterDefs(uri, distinct := false)` yields the URI's own cached definitions
followed by the definitions of every other child of that parent in set
order; with `distinct := true` each key keeps exactly its first occurrence
(later duplicates, including across siblings, are suppressed). -/
theorem iterDefs_spec (c : DocCache) (u p : String) (chs : List String)
    (h : c.parentToChild.filter (fun pc => decide (u ∈ pc.2)) = [(p, chs)]) :
    (c.iterDefs u false = ownDefs c u
        ++ (chs.filter (fun x => decide (x ≠ u))).flatMap (ownDefs c))
    ∧ (∀ k, (c.iterDefs u true).filter (fun d => d.key == k)
        = ((c.iterDefs u false).filter (fun d => d.key == k)).take 1) := by
  have hsib : sibDefs c u
      = (chs.filter (fun x => decide (x ≠ u))).flatMap (ownDefs c) := by
    unfold sibDefs
    exact sibContrib_eq_single u
      (fun ch2 => (ch2.filter (fun x => decide (x ≠ u))).flatMap (ownDefs c))
      c.parentToChild p chs h
  constructor
  · simp [DocCache.iterDefs, hsib]
  · intro k
    simp only [DocCache.iterDefs, if_true, Bool.false_eq_true, if_false]
    rw [dedupKeys_filter]
    simp

/-- A concrete notebook: cell `cellA` defines `[a]: /x`, cell `cellB` has no
definitions, both are children of notebook `nb`. -/
def nbCache : DocCache :=
  { data := [("cellA", ⟨[], fun _ => [], [⟨"a", "", "/x"⟩]⟩),
      ("cellB", ⟨[], fun _ => [], []⟩)]
    parentToChild := [("nb", ["cellA", "cellB"])] }

/-- Claim C5, witness: iterating definitions over cell B of the concrete
notebook yields the `a` definition sourced from its sibling cell A. -/
theorem iterDefs_spec_witness :
    (nbCache.parentToChild.filter (fun pc => decide ("cellB" ∈ pc.2))
        = [("nb", ["cellA", "cellB"])])
    ∧ (nbCache.iterDefs "cellB" false = ownDefs nbCache "cellB"
        ++ ((["cellA", "cellB"].filter
            (fun x => decide (x ≠ "cellB"))).flatMap (ownDefs nbCache)))
    ∧ (∀ k, (nbCache.iterDefs "cellB" true).filter (fun d => d.key == k)
        = ((nbCache.iterDefs "cellB" false).filter (fun d => d.key == k)).take 1)
    ∧ ((⟨"a", "", "/x"⟩ : IDefinition) ∈ nbCache.iterDefs "cellB" true) := by
  have h := iterDefs_spec nbCache "cellB" "nb" ["cellA", "cellB"] (by decide)
  exact ⟨by decide, h.1, h.2, by decide⟩

/-! ### Claim C8 — definition rule: title rollback and garbage rejection -/

/-- Claim C8: in the tail of the link-reference-definition rule, (1) when a
title parses successfully (after whitespace, before the end) but
non-whitespace garbage follows it on the same logical line, the title is
discarded and the position rolls back to just after the destination — if
the line is then clean the rule still yields a definition without a title,
while if garbage still follows the destination after the rollback the rule
declines entirely; (2) with no accepted title at all, garbage after the
destination is an outright rejection. -/
theorem reference_title_rollback_spec (str : List Char) (destEnd destLines : Nat) :
    (((skipSpNl str destEnd destLines).1 < str.length →
      destEnd ≠ (skipSpNl str destEnd destLines).1 →
      (parseLinkTitle str (skipSpNl str destEnd destLines).1).ok = true →
      garbageAt str
        (skipSp str (parseLinkTitle str (skipSpNl str destEnd destLines).1).pos)
        = true →
      (parseLinkTitle str (skipSpNl str destEnd destLines).1).str ≠ [] →
      ((garbageAt str (skipSp str destEnd) = false →
          refTail str destEnd destLines = some ⟨skipSp str destEnd, destLines, []⟩)
        ∧ (garbageAt str (skipSp str destEnd) = true →
          refTail str destEnd destLines = none))))
    ∧ ((¬ ((skipSpNl str destEnd destLines).1 < str.length
          ∧ destEnd ≠ (skipSpNl str destEnd destLines).1
          ∧ (parseLinkTitle str (skipSpNl str destEnd destLines).1).ok = true)) →
        garbageAt str (skipSp str destEnd) = true →
        refTail str destEnd destLines = none) := by
  constructor
  · intro h1 h2 h3 h4 h5
    have hcond : (decide ((skipSpNl str destEnd destLines).1 < str.length)
        && !(destEnd == (skipSpNl str destEnd destLines).1)
        && (parseLinkTitle str (skipSpNl str destEnd destLines).1).ok) = true := by
      simp [h1, h2, h3]
    have hne : (!(parseLinkTitle str (skipSpNl str destEnd destLines).1).str.isEmpty)
        = true := by
      rw [Bool.not_eq_true', ← Bool.not_eq_true, List.isEmpty_iff]
      exact h5
    constructor
    · intro hclean
      simp only [refTail, if_pos hcond, if_pos h4, if_pos hne]
      rw [if_neg (by simp [hclean])]
    · intro hdirty
      simp only [refTail, if_pos hcond, if_pos h4, if_pos hne]
      rw [if_pos hdirty]
  · intro hn hdirty
    have hcond : ¬ ((decide ((skipSpNl str destEnd destLines).1 < str.length)
        && !(destEnd == (skipSpNl str destEnd destLines).1)
        && (parseLinkTitle str (skipSpNl str destEnd destLines).1).ok) = true) := by
      intro habs
      apply hn
      simp only [Bool.and_eq_true, decide_eq_true_eq, Bool.not_eq_true',
        beq_eq_false_iff_ne] at habs
      exact ⟨habs.1.1, habs.1.2, habs.2⟩
    simp only [refTail, if_neg hcond]
    rw [if_pos hdirty]

/-- The rollback scenario: a title on the line after the destination, with
garbage after the title but a clean end of the destination's line. -/
def c8rollback : List Char := "[a]: /x\n\"t\" z".toList

/-- Garbage after the title on the destination's own line: the rollback
still sees garbage. -/
def c8garbage : List Char := "[a]: /x \"t\" z".toList

/-- No valid title, garbage after the destination. -/
def c8notitle : List Char := "[a]: /x z".toList

/-- Claim C8, witness: with the destination `/x` ending at position 7, the
multi-line candidate keeps a titleless definition consuming only the first
line, while the single-line garbage variants are rejected outright. -/
theorem reference_title_rollback_spec_witness :
    ((skipSpNl c8rollback 7 0).1 < c8rollback.length
      ∧ 7 ≠ (skipSpNl c8rollback 7 0).1
      ∧ (parseLinkTitle c8rollback (skipSpNl c8rollback 7 0).1).ok = true
      ∧ garbageAt c8rollback
          (skipSp c8rollback (parseLinkTitle c8rollback (skipSpNl c8rollback 7 0).1).pos)
          = true
      ∧ (parseLinkTitle c8rollback (skipSpNl c8rollback 7 0).1).str ≠ []
      ∧ garbageAt c8rollback (skipSp c8rollback 7) = false)
    ∧ refTail c8rollback 7 0 = some ⟨7, 0, []⟩
    ∧ refTail c8garbage 7 0 = none
    ∧ refTail c8notitle 7 0 = none := by
  refine ⟨by decide, ?_, ?_, ?_⟩
  · exact ((reference_title_rollback_spec c8rollback 7 0).1 (by decide) (by decide)
      (by decide) (by decide) (by decide)).1 (by decide)
  · exact ((reference_title_rollback_spec c8garbage 7 0).1 (by decide) (by decide)
      (by decide) (by decide) (by decide)).2 (by decide)
  · exact (reference_title_rollback_spec c8notitle 7 0).2 (by decide) (by decide)

end MystLsp
